import Mathlib

/-!
Verification of the BLAST neighborhood generator declared in
`src/AlDaBi-Praktikum/aufgabe4/BLAST_Neighborhood.hpp`.

The repository contains only the header: the class `BLAST_Neighborhood`
declares `generateNeighborhood` and the private helper
`findNeighborsRecursive`, but the implementing `.cpp` file and the
`a4_util.h` header (with `ScoreMatrix`) are absent.  The data type
`NHResult` is taken from the header; the behaviour of the two operations
is modelled from the specification (sections 3, 4 and 6): strings become
`List Char`, C++ `int` becomes `Int`, the mutated result buffer becomes a
returned list, and the fallible operation returns `Except`.
-/

/-- Neighborhood result data for a single infix of the query, from
`struct NHResult` in `BLAST_Neighborhood.hpp`.  The field `ifxStr`
models the member `infix` (renamed because `infix` is reserved here) and
`neighbors` models the member `neighbors`, a vector of (word, score)
pairs. -/
structure NHResult where
  ifxStr : List Char
  neighbors : List (List Char × Int)
deriving DecidableEq

/-- Modelled from the spec: the external Scoring Provider (`ScoreMatrix`
from `a4_util.h`, which is absent from the repository).  Per section 6 it
offers an ordered alphabet without duplicates and a pairwise
substitution-score lookup; any concrete representation is
interchangeable, so it is modelled as a record of the two operations. -/
structure ScoreMatrix where
  alphabet : List Char
  score : Char → Char → Int

/-- Modelled from the spec (section 4.2): the best achievable
substitution score over the alphabet against the target infix symbol `c`
— the true per-position maximum used by the pruning bound.  For an empty
alphabet the value is irrelevant (no word exists) and defaults to 0. -/
def bestSym (alphabet : List Char) (score : Char → Char → Int) (c : Char) : Int :=
  match alphabet with
  | [] => 0
  | [s] => score s c
  | s :: rest => max (score s c) (bestSym rest score c)

/-- Modelled from the spec (section 4.2, "pruning bound"): the maximum
possible score obtainable for the remaining infix positions `rest` — the
sum over those positions of the per-position maximum. -/
def suffixMax (alphabet : List Char) (score : Char → Char → Int) (rest : List Char) : Int :=
  (rest.map (bestSym alphabet score)).sum

/-- Modelled from the spec: the bounded depth-first search with
upper-bound pruning declared as `BLAST_Neighborhood::findNeighborsRecursive`
in `BLAST_Neighborhood.hpp`; its body (the `.cpp` file) is absent from
the repository, so the definition follows section 4.2 of the spec.  The
list `rest` of remaining infix symbols replaces the position counter,
`word` is the partial word built so far and `acc` the accumulated score;
the emitted neighbor list replaces the mutated `NHResult&` buffer.  For
every alphabet symbol in order, the branch is pruned exactly when the new
accumulated score plus the best possible remaining score is below
`score_threshold`; at a leaf the completed word is emitted with its score
when the score meets the threshold. -/
def findNeighborsRecursive (alphabet : List Char) (score : Char → Char → Int)
    (score_threshold : Int) : List Char → List Char → Int → List (List Char × Int)
  | [], word, acc => if score_threshold ≤ acc then [(word, acc)] else []
  | c :: rest, word, acc =>
    alphabet.flatMap (fun s =>
      if acc + score s c + suffixMax alphabet score rest < score_threshold then []
      else findNeighborsRecursive alphabet score score_threshold rest
        (word ++ [s]) (acc + score s c))

/-- Exhaustive depth-first enumeration of all candidate words, identical
to `findNeighborsRecursive` except that the pruning test is removed:
every branch is explored and the threshold is checked only at the
leaves.  This is the unpruned reference search of the refinement claim. -/
def findNeighborsNoPrune (alphabet : List Char) (score : Char → Char → Int)
    (score_threshold : Int) : List Char → List Char → Int → List (List Char × Int)
  | [], word, acc => if score_threshold ≤ acc then [(word, acc)] else []
  | c :: rest, word, acc =>
    alphabet.flatMap (fun s =>
      findNeighborsNoPrune alphabet score score_threshold rest
        (word ++ [s]) (acc + score s c))

/-- Lexicographic comparison of neighbors by their word component, the
sort key required by the spec (sections 3 and 4.3). -/
def wordLe (p q : List Char × Int) : Prop := p.1 ≤ q.1

instance : DecidableRel wordLe := fun p q => inferInstanceAs (Decidable (p.1 ≤ q.1))

instance : IsTotal (List Char × Int) wordLe := ⟨fun a b => le_total a.1 b.1⟩

instance : IsTrans (List Char × Int) wordLe := ⟨fun _ _ _ h h2 => le_trans h h2⟩

/-- Modelled from the spec (section 4.3): the neighbor list of every
infix is sorted lexicographically by word before being returned. -/
def sortNeighbors (l : List (List Char × Int)) : List (List Char × Int) :=
  l.insertionSort wordLe

/-- Modelled from the spec (section 4.2): the Neighbor Search Engine for
a single infix — the depth-first search started with an empty partial
word and accumulated score 0, followed by the lexicographic sort. -/
def searchIfx (alphabet : List Char) (score : Char → Char → Int)
    (score_threshold : Int) (ifx : List Char) : List (List Char × Int) :=
  sortNeighbors (findNeighborsRecursive alphabet score score_threshold ifx [] 0)

/-- Modelled from the spec (section 4.1): the Decomposer slices the query
into the infixes of length `word_size` starting at every position `i`
with `i + word_size ≤ length query`, in ascending position order; a
`word_size` larger than the query yields the empty sequence, and a
non-positive `word_size` yields no infixes (section 4.2 failure
conditions: the search produces no matches then). -/
def decompose (query : List Char) (word_size : Int) : List (List Char) :=
  if word_size ≤ 0 then []
  else (List.range (query.length + 1 - word_size.toNat)).map
    (fun i => (query.drop i).take word_size.toNat)

/-- Modelled from the spec: `BLAST_Neighborhood::generateNeighborhood`
declared in `BLAST_Neighborhood.hpp`, whose body is absent from the
repository.  Following sections 4.3, 6 and 9 (the extended contract),
the call fails with `InvalidArgument` exactly when `threads` is not
positive, and otherwise returns one `NHResult` per infix in query order.
The worker pool only schedules the independent per-infix searches, so
the result is the order-preserving map of the Search Engine over the
decomposed query, irrespective of `threads`. -/
def generateNeighborhood (query : List Char) (matrix : ScoreMatrix)
    (word_size : Int) (score_threshold : Int) (threads : Int) :
    Except String (List NHResult) :=
  if threads ≤ 0 then Except.error "InvalidArgument"
  else Except.ok ((decompose query word_size).map (fun ifx =>
    { ifxStr := ifx
      neighbors := searchIfx matrix.alphabet matrix.score score_threshold ifx }))

/-- All words of the given length over the alphabet, in depth-first
alphabet order: the candidate universe of the brute-force oracle of spec
section 8. -/
def allWords (alphabet : List Char) : Nat → List (List Char)
  | 0 => [[]]
  | n + 1 => alphabet.flatMap (fun s => (allWords alphabet n).map (fun w => s :: w))

/-- Total alignment score of a word against an infix: the sum of
position-wise substitution scores (spec section 3, "Neighbor"). -/
def totalScore (score : Char → Char → Int) (word ifx : List Char) : Int :=
  (List.zipWith score word ifx).sum

/-- Brute-force oracle from spec section 8: enumerate every word of the
infix's length over the alphabet and keep exactly those whose total
score meets the threshold, paired with that score. -/
def bruteForce (alphabet : List Char) (score : Char → Char → Int)
    (score_threshold : Int) (ifx : List Char) : List (List Char × Int) :=
  (allWords alphabet ifx.length).filterMap (fun w =>
    if score_threshold ≤ totalScore score w ifx then some (w, totalScore score w ifx)
    else none)

/-- Concrete example data from spec section 8: the DNA alphabet. -/
def dnaAlphabet : List Char := ['A', 'C', 'G', 'T']

/-- Concrete example data from spec section 8: +1 for identical symbols,
-1 otherwise. -/
def unitScore (a b : Char) : Int := if a = b then 1 else -1

/-- Concrete example Scoring Provider from spec section 8. -/
def mEx : ScoreMatrix := ⟨dnaAlphabet, unitScore⟩

/-- Concrete example query from spec section 8. -/
def qEx : List Char := ['A', 'C', 'G', 'T']

/-! ### Basic facts about the candidate universe and the pruning bound -/

theorem mem_allWords {alphabet : List Char} : ∀ {n : Nat} {w : List Char},
    w ∈ allWords alphabet n ↔ w.length = n ∧ ∀ c ∈ w, c ∈ alphabet := by
  intro n
  induction n with
  | zero =>
    intro w
    constructor
    · intro hw
      rw [show allWords alphabet 0 = [[]] from rfl, List.mem_singleton] at hw
      subst hw; simp
    · rintro ⟨hlen, -⟩
      rw [show allWords alphabet 0 = [[]] from rfl, List.mem_singleton]
      exact List.length_eq_zero.mp hlen
  | succ n ih =>
    intro w
    rw [show allWords alphabet (n + 1) =
      alphabet.flatMap (fun s => (allWords alphabet n).map (fun u => s :: u)) from rfl]
    rw [List.mem_flatMap]
    constructor
    · rintro ⟨s, hs, hw⟩
      rcases List.mem_map.mp hw with ⟨u, hu, rfl⟩
      rcases ih.mp hu with ⟨hlen, hch⟩
      refine ⟨by simp [hlen], ?_⟩
      intro c hc
      rcases List.mem_cons.mp hc with rfl | hc
      · exact hs
      · exact hch c hc
    · rintro ⟨hlen, hch⟩
      cases w with
      | nil => simp at hlen
      | cons s u =>
        refine ⟨s, hch s (by simp), List.mem_map.mpr ⟨u, ih.mpr ⟨?_, ?_⟩, rfl⟩⟩
        · simpa using hlen
        · intro c hc
          exact hch c (by simp [hc])

theorem le_bestSym {alphabet : List Char} {s : Char} (hs : s ∈ alphabet)
    (score : Char → Char → Int) (c : Char) : score s c ≤ bestSym alphabet score c := by
  induction alphabet with
  | nil => cases hs
  | cons a rest ih =>
    cases rest with
    | nil =>
      rcases List.mem_singleton.mp hs with rfl
      simp [bestSym]
    | cons b rest2 =>
      rcases List.mem_cons.mp hs with rfl | hs2
      · rw [show bestSym (s :: b :: rest2) score c =
          max (score s c) (bestSym (b :: rest2) score c) from rfl]
        exact le_max_left _ _
      · calc score s c ≤ bestSym (b :: rest2) score c := ih hs2
          _ ≤ bestSym (a :: b :: rest2) score c := by
              rw [show bestSym (a :: b :: rest2) score c =
                max (score a c) (bestSym (b :: rest2) score c) from rfl]
              exact le_max_right _ _

theorem totalScore_le_suffixMax {alphabet : List Char} (score : Char → Char → Int) :
    ∀ {rest w : List Char}, w.length = rest.length → (∀ c ∈ w, c ∈ alphabet) →
      totalScore score w rest ≤ suffixMax alphabet score rest := by
  intro rest
  induction rest with
  | nil =>
    intro w hlen _
    have hw : w = [] := List.length_eq_zero.mp (by simpa using hlen)
    subst hw
    simp [totalScore, suffixMax]
  | cons c rest ih =>
    intro w hlen hch
    cases w with
    | nil => simp at hlen
    | cons s u =>
      have h1 : score s c ≤ bestSym alphabet score c := le_bestSym (hch s (by simp)) score c
      have h2 : totalScore score u rest ≤ suffixMax alphabet score rest :=
        ih (by simpa using hlen) (fun d hd => hch d (by simp [hd]))
      have : totalScore score (s :: u) (c :: rest) = score s c + totalScore score u rest := by
        simp [totalScore]
      rw [this, show suffixMax alphabet score (c :: rest) =
        bestSym alphabet score c + suffixMax alphabet score rest by simp [suffixMax]]
      exact add_le_add h1 h2

/-! ### The searches as filters of the brute-force universe -/

theorem findNeighborsNoPrune_eq (alphabet : List Char) (score : Char → Char → Int)
    (t : Int) : ∀ (rest word : List Char) (acc : Int),
    findNeighborsNoPrune alphabet score t rest word acc =
      (allWords alphabet rest.length).filterMap (fun v =>
        if t ≤ acc + totalScore score v rest then
          some (word ++ v, acc + totalScore score v rest) else none) := by
  intro rest
  induction rest with
  | nil =>
    intro word acc
    by_cases h : t ≤ acc
    · simp [findNeighborsNoPrune, allWords, totalScore, List.filterMap_cons, h]
    · simp [findNeighborsNoPrune, allWords, totalScore, List.filterMap_cons, h]
  | cons c rest ih =>
    intro word acc
    rw [show findNeighborsNoPrune alphabet score t (c :: rest) word acc =
      alphabet.flatMap (fun s => findNeighborsNoPrune alphabet score t rest
        (word ++ [s]) (acc + score s c)) from rfl]
    rw [show (c :: rest).length = rest.length + 1 from rfl]
    rw [show allWords alphabet (rest.length + 1) =
      alphabet.flatMap (fun s => (allWords alphabet rest.length).map (fun u => s :: u))
      from rfl]
    rw [List.filterMap_flatMap]
    congr 1
    funext s
    rw [ih, List.filterMap_map]
    congr 1
    funext v
    have hts : totalScore score (s :: v) (c :: rest) = score s c + totalScore score v rest := by
      simp [totalScore]
    simp only [Function.comp_apply]
    rw [hts, ← add_assoc, List.append_cons word s v]

theorem findNeighborsRecursive_eq_noPrune (alphabet : List Char)
    (score : Char → Char → Int) (t : Int) : ∀ (rest word : List Char) (acc : Int),
    findNeighborsRecursive alphabet score t rest word acc =
      findNeighborsNoPrune alphabet score t rest word acc := by
  intro rest
  induction rest with
  | nil => intro word acc; rfl
  | cons c rest ih =>
    intro word acc
    rw [show findNeighborsRecursive alphabet score t (c :: rest) word acc =
      alphabet.flatMap (fun s =>
        if acc + score s c + suffixMax alphabet score rest < t then []
        else findNeighborsRecursive alphabet score t rest (word ++ [s]) (acc + score s c))
      from rfl]
    rw [show findNeighborsNoPrune alphabet score t (c :: rest) word acc =
      alphabet.flatMap (fun s => findNeighborsNoPrune alphabet score t rest
        (word ++ [s]) (acc + score s c)) from rfl]
    congr 1
    funext s
    by_cases hp : acc + score s c + suffixMax alphabet score rest < t
    · rw [if_pos hp, findNeighborsNoPrune_eq]
      symm
      rw [List.filterMap_eq_nil_iff]
      intro v hv
      rcases mem_allWords.mp hv with ⟨hlen, hch⟩
      have hle := totalScore_le_suffixMax score hlen hch
      rw [if_neg (by omega)]
    · rw [if_neg hp]
      exact ih _ _

theorem findNeighborsRecursive_eq_bruteForce (alphabet : List Char)
    (score : Char → Char → Int) (t : Int) (ifx : List Char) :
    findNeighborsRecursive alphabet score t ifx [] 0 = bruteForce alphabet score t ifx := by
  rw [findNeighborsRecursive_eq_noPrune, findNeighborsNoPrune_eq]
  unfold bruteForce
  congr 1
  funext v
  simp

theorem mem_bruteForce {alphabet : List Char} {score : Char → Char → Int}
    {t : Int} {ifx w : List Char} {s : Int} :
    (w, s) ∈ bruteForce alphabet score t ifx ↔
      w.length = ifx.length ∧ (∀ c ∈ w, c ∈ alphabet) ∧
        s = totalScore score w ifx ∧ t ≤ s := by
  unfold bruteForce
  rw [List.mem_filterMap]
  constructor
  · rintro ⟨v, hv, hf⟩
    rcases mem_allWords.mp hv with ⟨hlen, hch⟩
    by_cases hcond : t ≤ totalScore score v ifx
    · rw [if_pos hcond, Option.some_inj, Prod.mk.injEq] at hf
      obtain ⟨rfl, rfl⟩ := hf
      exact ⟨hlen, hch, rfl, hcond⟩
    · rw [if_neg hcond] at hf
      cases hf
  · rintro ⟨hlen, hch, rfl, ht⟩
    exact ⟨w, mem_allWords.mpr ⟨hlen, hch⟩, by rw [if_pos ht]⟩

theorem searchIfx_perm_bruteForce (alphabet : List Char) (score : Char → Char → Int)
    (t : Int) (ifx : List Char) :
    (searchIfx alphabet score t ifx).Perm (bruteForce alphabet score t ifx) := by
  unfold searchIfx sortNeighbors
  rw [findNeighborsRecursive_eq_bruteForce]
  exact List.perm_insertionSort wordLe _

theorem mem_searchIfx {alphabet : List Char} {score : Char → Char → Int}
    {t : Int} {ifx : List Char} {p : List Char × Int} :
    p ∈ searchIfx alphabet score t ifx ↔ p ∈ bruteForce alphabet score t ifx :=
  (searchIfx_perm_bruteForce alphabet score t ifx).mem_iff

theorem map_fst_filterMap_score (score : Char → Char → Int) (t : Int) (ifx : List Char) :
    ∀ l : List (List Char),
      (l.filterMap (fun w => if t ≤ totalScore score w ifx then
          some (w, totalScore score w ifx) else none)).map Prod.fst =
        l.filter (fun w => decide (t ≤ totalScore score w ifx)) := by
  intro l
  induction l with
  | nil => rfl
  | cons w l ih =>
    by_cases h : t ≤ totalScore score w ifx
    · simp [List.filterMap_cons, List.filter_cons, h, ih]
    · simp [List.filterMap_cons, List.filter_cons, h, ih]

theorem nodup_allWords {alphabet : List Char} (hnd : alphabet.Nodup) :
    ∀ n, (allWords alphabet n).Nodup := by
  intro n
  induction n with
  | zero => exact List.nodup_singleton _
  | succ n ih =>
    rw [show allWords alphabet (n + 1) =
      alphabet.flatMap (fun s => (allWords alphabet n).map (fun u => s :: u)) from rfl]
    rw [List.nodup_flatMap]
    constructor
    · intro s _
      exact ih.map (fun u v h => (List.cons.inj h).2)
    · refine List.Pairwise.imp ?_ hnd
      intro a b hab x hx hy
      rcases List.mem_map.mp hx with ⟨u, -, rfl⟩
      rcases List.mem_map.mp hy with ⟨v, -, h⟩
      exact hab (List.cons.inj h).1.symm

theorem nodup_fst_searchIfx {alphabet : List Char} (hnd : alphabet.Nodup)
    (score : Char → Char → Int) (t : Int) (ifx : List Char) :
    ((searchIfx alphabet score t ifx).map Prod.fst).Nodup := by
  rw [((searchIfx_perm_bruteForce alphabet score t ifx).map Prod.fst).nodup_iff]
  unfold bruteForce
  rw [map_fst_filterMap_score]
  exact (nodup_allWords hnd _).filter _

theorem pairwise_lt_searchIfx {alphabet : List Char} (hnd : alphabet.Nodup)
    (score : Char → Char → Int) (t : Int) (ifx : List Char) :
    (searchIfx alphabet score t ifx).Pairwise (fun p q => p.1 < q.1) := by
  have hsorted : (searchIfx alphabet score t ifx).Pairwise wordLe :=
    List.sorted_insertionSort wordLe _
  have hne : (searchIfx alphabet score t ifx).Pairwise (fun p q => p.1 ≠ q.1) :=
    List.pairwise_map.mp (nodup_fst_searchIfx hnd score t ifx)
  exact (hsorted.and hne).imp (fun h => lt_of_le_of_ne h.1 h.2)

/-! ### The Decomposer -/

theorem decompose_eq (query : List Char) (w : Int) (hw : 0 < w) :
    decompose query w =
      (List.range (query.length + 1 - w.toNat)).map
        (fun i => (query.drop i).take w.toNat) := by
  unfold decompose
  rw [if_neg (by omega)]

theorem mem_decompose_length {query : List Char} {w : Int} {ifx : List Char}
    (h : ifx ∈ decompose query w) :
    0 < w ∧ ifx.length = w.toNat ∧ w.toNat ≤ query.length := by
  by_cases hw : w ≤ 0
  · unfold decompose at h
    rw [if_pos hw] at h
    cases h
  · push_neg at hw
    rw [decompose_eq query w hw] at h
    rcases List.mem_map.mp h with ⟨i, hi, rfl⟩
    rw [List.mem_range] at hi
    refine ⟨hw, ?_, by omega⟩
    rw [List.length_take, List.length_drop]
    omega

/-! ### The orchestrator -/

theorem generateNeighborhood_ok (query : List Char) (matrix : ScoreMatrix)
    (word_size score_threshold : Int) {threads : Int} (hth : ¬ threads ≤ 0) :
    generateNeighborhood query matrix word_size score_threshold threads =
      Except.ok ((decompose query word_size).map (fun ifx =>
        ⟨ifx, searchIfx matrix.alphabet matrix.score score_threshold ifx⟩)) := by
  unfold generateNeighborhood
  rw [if_neg hth]

theorem mem_generateNeighborhood {query : List Char} {matrix : ScoreMatrix}
    {word_size score_threshold threads : Int} {res : List NHResult}
    (hres : generateNeighborhood query matrix word_size score_threshold threads =
      Except.ok res) {r : NHResult} (hr : r ∈ res) :
    r.ifxStr ∈ decompose query word_size ∧
      r.neighbors = searchIfx matrix.alphabet matrix.score score_threshold r.ifxStr := by
  by_cases hth : threads ≤ 0
  · unfold generateNeighborhood at hres
    rw [if_pos hth] at hres
    cases hres
  · rw [generateNeighborhood_ok query matrix word_size score_threshold hth] at hres
    rw [Except.ok.injEq] at hres
    subst hres
    rcases List.mem_map.mp hr with ⟨ifx, hifx, rfl⟩
    exact ⟨hifx, rfl⟩

/-! ### Indexed access helpers -/

theorem get_range_map {α : Type} (f : Nat → α) {n i : Nat}
    (hi : i < ((List.range n).map f).length) :
    ((List.range n).map f).get ⟨i, hi⟩ = f i := by
  rw [List.get_eq_getElem, List.getElem_map, List.getElem_range]

theorem get_congr {α : Type} {l l2 : List α} (h : l = l2) {i : Nat}
    (hi : i < l.length) (hi2 : i < l2.length) :
    l.get ⟨i, hi⟩ = l2.get ⟨i, hi2⟩ := by
  subst h
  rfl

theorem get_map {α β : Type} (f : α → β) {l : List α} {i : Nat}
    (hi : i < (l.map f).length) :
    (l.map f).get ⟨i, hi⟩ = f (l.get ⟨i, by simpa using hi⟩) := by
  rw [List.get_eq_getElem, List.getElem_map, List.get_eq_getElem]

theorem ifxStr_positional {query : List Char} {matrix : ScoreMatrix}
    {word_size score_threshold threads : Int} {res : List NHResult}
    (hres : generateNeighborhood query matrix word_size score_threshold threads =
      Except.ok res) (i : Nat) (hi : i < res.length) :
    (res.get ⟨i, hi⟩).ifxStr = (query.drop i).take word_size.toNat := by
  have hth : ¬ threads ≤ 0 := by
    intro h
    rw [show generateNeighborhood query matrix word_size score_threshold threads =
      Except.error "InvalidArgument" by
        unfold generateNeighborhood; rw [if_pos h]] at hres
    cases hres
  have hres2 : res = (decompose query word_size).map (fun ifx =>
      ⟨ifx, searchIfx matrix.alphabet matrix.score score_threshold ifx⟩) := by
    rw [generateNeighborhood_ok query matrix word_size score_threshold hth,
      Except.ok.injEq] at hres
    exact hres.symm
  by_cases hw : 0 < word_size
  · have hres3 : res = (List.range (query.length + 1 - word_size.toNat)).map
        (fun j => (⟨(query.drop j).take word_size.toNat,
          searchIfx matrix.alphabet matrix.score score_threshold
            ((query.drop j).take word_size.toNat)⟩ : NHResult)) := by
      rw [hres2, decompose_eq query word_size hw, List.map_map]
      rfl
    have hi2 : i < ((List.range (query.length + 1 - word_size.toNat)).map
        (fun j => (⟨(query.drop j).take word_size.toNat,
          searchIfx matrix.alphabet matrix.score score_threshold
            ((query.drop j).take word_size.toNat)⟩ : NHResult))).length := by
      rw [← hres3]
      exact hi
    rw [get_congr hres3 hi hi2, get_range_map]
  · exfalso
    rw [hres2] at hi
    unfold decompose at hi
    rw [if_pos (by omega)] at hi
    simp at hi

theorem searchIfx_mono {alphabet : List Char} {score : Char → Char → Int}
    {t1 t2 : Int} (ht : t1 ≤ t2) {ifx : List Char} {p : List Char × Int}
    (hp : p ∈ searchIfx alphabet score t2 ifx) :
    p ∈ searchIfx alphabet score t1 ifx := by
  obtain ⟨wd, sc⟩ := p
  rw [mem_searchIfx, mem_bruteForce] at hp ⊢
  exact ⟨hp.1, hp.2.1, hp.2.2.1, le_trans ht hp.2.2.2⟩

/-! ### Concrete data for the witnesses (the worked example of spec section 8) -/

/-- Concrete result of the spec section 8 example run
(query ACGT, word size 2, threshold 2, unit scoring). -/
def resEx : List NHResult :=
  [⟨['A','C'], [(['A','C'], 2)]⟩, ⟨['C','G'], [(['C','G'], 2)]⟩,
   ⟨['G','T'], [(['G','T'], 2)]⟩]

theorem genEx_eval : generateNeighborhood qEx mEx 2 2 1 = Except.ok resEx := by
  rw [generateNeighborhood_ok qEx mEx 2 2 (by omega), Except.ok.injEq]
  decide

theorem genEx_eval1 : generateNeighborhood qEx mEx 2 1 1 = Except.ok resEx := by
  rw [generateNeighborhood_ok qEx mEx 2 1 (by omega), Except.ok.injEq]
  decide

/-! ### The claims -/

/-- C1: for every infix of the query, the Neighbor Search Engine
(`generateNeighborhood` together with `findNeighborsRecursive`) produces
exactly the set of (word, score) pairs of the brute-force oracle: a pair
is a neighbor iff its word has length `word_size` over the alphabet and
its position-wise total score against the infix meets the threshold,
recorded with exactly that score; for a duplicate-free alphabet each word
appears exactly once, and the neighbor list is a permutation of the
oracle's output. -/
theorem engine_matches_oracle (query : List Char) (matrix : ScoreMatrix)
    (word_size score_threshold threads : Int) (res : List NHResult)
    (hres : generateNeighborhood query matrix word_size score_threshold threads =
      Except.ok res) (r : NHResult) (hr : r ∈ res) :
    (∀ wd sc, (wd, sc) ∈ r.neighbors ↔
      (wd.length = word_size.toNat ∧ (∀ c ∈ wd, c ∈ matrix.alphabet) ∧
        sc = totalScore matrix.score wd r.ifxStr ∧ score_threshold ≤ sc)) ∧
    (matrix.alphabet.Nodup → (r.neighbors.map Prod.fst).Nodup) ∧
    r.neighbors.Perm
      (bruteForce matrix.alphabet matrix.score score_threshold r.ifxStr) := by
  obtain ⟨hifx, hnb⟩ := mem_generateNeighborhood hres hr
  obtain ⟨hw, hlen, -⟩ := mem_decompose_length hifx
  refine ⟨?_, ?_, ?_⟩
  · intro wd sc
    rw [hnb, mem_searchIfx, mem_bruteForce, hlen]
  · intro hnd
    rw [hnb]
    exact nodup_fst_searchIfx hnd matrix.score score_threshold r.ifxStr
  · rw [hnb]
    exact searchIfx_perm_bruteForce matrix.alphabet matrix.score score_threshold r.ifxStr

/-- Witness for C1 at the worked example of spec section 8: the first
result (infix AC) of the run with word size 2, threshold 2, one thread. -/
theorem engine_matches_oracle_witness :
    (∀ wd sc, (wd, sc) ∈ [(['A','C'], (2:Int))] ↔
      (wd.length = 2 ∧ (∀ c ∈ wd, c ∈ dnaAlphabet) ∧
        sc = totalScore unitScore wd ['A','C'] ∧ 2 ≤ sc)) ∧
    (dnaAlphabet.Nodup → (([(['A','C'], (2:Int))]).map Prod.fst).Nodup) ∧
    ([(['A','C'], (2:Int))]).Perm (bruteForce dnaAlphabet unitScore 2 ['A','C']) :=
  engine_matches_oracle qEx mEx 2 2 1 resEx genEx_eval
    ⟨['A','C'], [(['A','C'], 2)]⟩ (by decide)

/-- C2: `generateNeighborhood` fails with InvalidArgument exactly when
`threads` is not positive (producing no result then), and returns a
result for every positive `threads` value. -/
theorem threads_validation (query : List Char) (matrix : ScoreMatrix)
    (word_size score_threshold threads : Int) :
    (threads ≤ 0 →
      generateNeighborhood query matrix word_size score_threshold threads =
        Except.error "InvalidArgument") ∧
    (0 < threads → ∃ res,
      generateNeighborhood query matrix word_size score_threshold threads =
        Except.ok res) := by
  constructor
  · intro h
    unfold generateNeighborhood
    rw [if_pos h]
  · intro h
    exact ⟨_, generateNeighborhood_ok query matrix word_size score_threshold (by omega)⟩

/-- Witness for C2: threads 0 and -1 fail with InvalidArgument, threads 1
succeeds, on the spec section 8 example. -/
theorem threads_validation_witness :
    generateNeighborhood qEx mEx 2 2 0 = Except.error "InvalidArgument" ∧
    generateNeighborhood qEx mEx 2 2 (-1) = Except.error "InvalidArgument" ∧
    ∃ res, generateNeighborhood qEx mEx 2 2 1 = Except.ok res :=
  ⟨(threads_validation qEx mEx 2 2 0).1 (by omega),
   (threads_validation qEx mEx 2 2 (-1)).1 (by omega),
   (threads_validation qEx mEx 2 2 1).2 (by omega)⟩

/-- C3: the depth-first search with upper-bound pruning equals the
unpruned exhaustive enumeration from every search state, for every
alphabet, scoring function and threshold: the pruning test (accumulated
score plus true per-position maxima of the remaining positions below the
threshold) never discards a word that could still reach the threshold. -/
theorem pruned_eq_unpruned (alphabet : List Char) (score : Char → Char → Int)
    (score_threshold : Int) (rest word : List Char) (acc : Int) :
    findNeighborsRecursive alphabet score score_threshold rest word acc =
      findNeighborsNoPrune alphabet score score_threshold rest word acc :=
  findNeighborsRecursive_eq_noPrune alphabet score score_threshold rest word acc

/-- C4: in every result of `generateNeighborhood` (for a duplicate-free
alphabet, an invariant of the spec's data model), the words within each
neighbor list are strictly increasing lexicographically, and the i-th
result entry carries the infix of the query starting at position i — so
entries appear in strictly increasing start-position order and each
matches the query's substring of length `word_size` at its position. -/
theorem results_sorted_and_positional (query : List Char) (matrix : ScoreMatrix)
    (word_size score_threshold threads : Int) (hnd : matrix.alphabet.Nodup)
    (res : List NHResult)
    (hres : generateNeighborhood query matrix word_size score_threshold threads =
      Except.ok res) :
    (∀ r ∈ res, r.neighbors.Pairwise (fun p q => p.1 < q.1)) ∧
    (∀ i (hi : i < res.length),
      (res.get ⟨i, hi⟩).ifxStr = (query.drop i).take word_size.toNat) := by
  constructor
  · intro r hr
    obtain ⟨-, hnb⟩ := mem_generateNeighborhood hres hr
    rw [hnb]
    exact pairwise_lt_searchIfx hnd matrix.score score_threshold r.ifxStr
  · exact ifxStr_positional hres

/-- Witness for C4 on the spec section 8 example run. -/
theorem results_sorted_and_positional_witness :
    (∀ r ∈ resEx, r.neighbors.Pairwise (fun p q => p.1 < q.1)) ∧
    (∀ i (hi : i < resEx.length),
      (resEx.get ⟨i, hi⟩).ifxStr = (qEx.drop i).take 2) :=
  results_sorted_and_positional qEx mEx 2 2 1 (by decide) resEx genEx_eval

/-- C5: for positive `word_size` the Decomposer produces exactly one
infix per position i with i + word_size ≤ length query — the i-th infix
is the query's substring of length `word_size` at position i, so the
sequence is in ascending position order — and a `word_size` exceeding the
query length yields the empty sequence rather than an error. -/
theorem decomposer_exact (query : List Char) (word_size : Int)
    (hw : 0 < word_size) :
    (decompose query word_size).length = query.length + 1 - word_size.toNat ∧
    (∀ i (hi : i < (decompose query word_size).length),
      (decompose query word_size).get ⟨i, hi⟩ = (query.drop i).take word_size.toNat ∧
        i + word_size.toNat ≤ query.length) ∧
    ((query.length : Int) < word_size → decompose query word_size = []) := by
  have hlen : (decompose query word_size).length =
      query.length + 1 - word_size.toNat := by
    rw [decompose_eq query word_size hw]
    simp
  refine ⟨hlen, ?_, ?_⟩
  · intro i hi
    constructor
    · have hi2 : i < ((List.range (query.length + 1 - word_size.toNat)).map
          (fun j => (query.drop j).take word_size.toNat)).length := by
        rw [← decompose_eq query word_size hw]
        exact hi
      rw [get_congr (decompose_eq query word_size hw) hi hi2, get_range_map]
    · rw [hlen] at hi
      omega
  · intro hql
    rw [decompose_eq query word_size hw,
      show query.length + 1 - word_size.toNat = 0 by omega]
    rfl

/-- Witness for C5 on the spec section 8 example query. -/
theorem decomposer_exact_witness :
    (decompose qEx 2).length = qEx.length + 1 - 2 ∧
    (∀ i (hi : i < (decompose qEx 2).length),
      (decompose qEx 2).get ⟨i, hi⟩ = (qEx.drop i).take 2 ∧ i + 2 ≤ qEx.length) ∧
    ((qEx.length : Int) < 2 → decompose qEx 2 = []) :=
  decomposer_exact qEx 2 (by omega)

/-- C6: every neighbor (word, score) emitted for an infix has a word of
length `word_size` over the alphabet, a score equal to the sum of
position-wise substitution scores against the infix, and a score meeting
the threshold. -/
theorem neighbor_wellformed (query : List Char) (matrix : ScoreMatrix)
    (word_size score_threshold threads : Int) (res : List NHResult)
    (hres : generateNeighborhood query matrix word_size score_threshold threads =
      Except.ok res) (r : NHResult) (hr : r ∈ res)
    (wd : List Char) (sc : Int) (hmem : (wd, sc) ∈ r.neighbors) :
    wd.length = word_size.toNat ∧ (∀ c ∈ wd, c ∈ matrix.alphabet) ∧
      sc = totalScore matrix.score wd r.ifxStr ∧ score_threshold ≤ sc := by
  obtain ⟨hifx, hnb⟩ := mem_generateNeighborhood hres hr
  obtain ⟨-, hlen, -⟩ := mem_decompose_length hifx
  rw [hnb, mem_searchIfx, mem_bruteForce, hlen] at hmem
  exact hmem

/-- Witness for C6 at the neighbor (AC, 2) of the spec section 8 example. -/
theorem neighbor_wellformed_witness :
    (['A','C'] : List Char).length = 2 ∧
      (∀ c ∈ (['A','C'] : List Char), c ∈ dnaAlphabet) ∧
      (2:Int) = totalScore unitScore ['A','C'] ['A','C'] ∧ (2:Int) ≤ 2 :=
  neighbor_wellformed qEx mEx 2 2 1 resEx genEx_eval
    ⟨['A','C'], [(['A','C'], 2)]⟩ (by decide) ['A','C'] 2 (by decide)

/-- C7: for fixed query, matrix, word size and threshold, the result of
`generateNeighborhood` is identical for every pair of positive `threads`
values — parallelism does not change the result. -/
theorem threads_invariance (query : List Char) (matrix : ScoreMatrix)
    (word_size score_threshold threads1 threads2 : Int)
    (h1 : 0 < threads1) (h2 : 0 < threads2) :
    generateNeighborhood query matrix word_size score_threshold threads1 =
      generateNeighborhood query matrix word_size score_threshold threads2 := by
  rw [generateNeighborhood_ok query matrix word_size score_threshold (by omega),
    generateNeighborhood_ok query matrix word_size score_threshold (by omega)]

/-- Witness for C7 on the spec section 8 example with 1 and 2 threads. -/
theorem threads_invariance_witness :
    generateNeighborhood qEx mEx 2 2 1 = generateNeighborhood qEx mEx 2 2 2 :=
  threads_invariance qEx mEx 2 2 1 2 (by omega) (by omega)

/-- C8: for fixed query, matrix, word size and threads and thresholds
t1 ≤ t2, the run at t2 yields the same infixes in the same order and, at
every position, a neighbor list that is a subset of the one at t1:
neighbor sets are monotonically non-increasing in the threshold. -/
theorem threshold_monotone (query : List Char) (matrix : ScoreMatrix)
    (word_size threads t1 t2 : Int) (ht : t1 ≤ t2) (res1 res2 : List NHResult)
    (h1 : generateNeighborhood query matrix word_size t1 threads = Except.ok res1)
    (h2 : generateNeighborhood query matrix word_size t2 threads = Except.ok res2) :
    res1.length = res2.length ∧
    ∀ i (hi1 : i < res1.length) (hi2 : i < res2.length),
      (res2.get ⟨i, hi2⟩).ifxStr = (res1.get ⟨i, hi1⟩).ifxStr ∧
      ∀ p ∈ (res2.get ⟨i, hi2⟩).neighbors, p ∈ (res1.get ⟨i, hi1⟩).neighbors := by
  have hth : ¬ threads ≤ 0 := by
    intro h
    rw [show generateNeighborhood query matrix word_size t1 threads =
      Except.error "InvalidArgument" by
        unfold generateNeighborhood; rw [if_pos h]] at h1
    cases h1
  have e1 : res1 = (decompose query word_size).map (fun ifx =>
      ⟨ifx, searchIfx matrix.alphabet matrix.score t1 ifx⟩) := by
    rw [generateNeighborhood_ok query matrix word_size t1 hth, Except.ok.injEq] at h1
    exact h1.symm
  have e2 : res2 = (decompose query word_size).map (fun ifx =>
      ⟨ifx, searchIfx matrix.alphabet matrix.score t2 ifx⟩) := by
    rw [generateNeighborhood_ok query matrix word_size t2 hth, Except.ok.injEq] at h2
    exact h2.symm
  subst e1
  subst e2
  refine ⟨by simp, ?_⟩
  intro i hi1 hi2
  rw [get_map _ hi1, get_map _ hi2]
  constructor
  · rfl
  · intro p hp
    exact searchIfx_mono ht hp

/-- Witness for C8 on the spec section 8 example with thresholds 1 and 2
(both runs produce the same three singleton neighbor lists). -/
theorem threshold_monotone_witness :
    resEx.length = resEx.length ∧
    ∀ i (hi1 : i < resEx.length) (hi2 : i < resEx.length),
      (resEx.get ⟨i, hi2⟩).ifxStr = (resEx.get ⟨i, hi1⟩).ifxStr ∧
      ∀ p ∈ (resEx.get ⟨i, hi2⟩).neighbors, p ∈ (resEx.get ⟨i, hi1⟩).neighbors :=
  threshold_monotone qEx mEx 2 1 1 2 (by omega) resEx resEx genEx_eval1 genEx_eval

/-- C9: a non-positive `word_size` yields a well-defined empty result
(no error), and an infix whose maximum possible whole-word score is
below the threshold yields a well-defined empty neighbor list. -/
theorem degenerate_empty (query : List Char) (matrix : ScoreMatrix)
    (word_size score_threshold threads : Int) (hth : 0 < threads) :
    (word_size ≤ 0 →
      generateNeighborhood query matrix word_size score_threshold threads =
        Except.ok []) ∧
    (∀ ifx : List Char,
      suffixMax matrix.alphabet matrix.score ifx < score_threshold →
        searchIfx matrix.alphabet matrix.score score_threshold ifx = []) := by
  constructor
  · intro hw
    rw [generateNeighborhood_ok query matrix word_size score_threshold (by omega)]
    unfold decompose
    rw [if_pos hw]
    rfl
  · intro ifx hmax
    rw [List.eq_nil_iff_forall_not_mem]
    rintro ⟨wd, sc⟩ hp
    rw [mem_searchIfx, mem_bruteForce] at hp
    obtain ⟨hlen, hch, rfl, hts⟩ := hp
    have hbound := totalScore_le_suffixMax matrix.score hlen hch
    omega

/-- Witness for C9: word size -1 yields an empty result on the example,
and every infix with unreachable threshold has an empty neighbor list. -/
theorem degenerate_empty_witness :
    ((-1 : Int) ≤ 0 →
      generateNeighborhood qEx mEx (-1) 2 1 = Except.ok []) ∧
    (∀ ifx : List Char,
      suffixMax dnaAlphabet unitScore ifx < 2 →
        searchIfx dnaAlphabet unitScore 2 ifx = []) :=
  degenerate_empty qEx mEx (-1) 2 1 (by omega)

/-- C10: for every result entry whose infix consists only of alphabet
symbols, if the threshold equals the infix's self-score (the sum of each
position's substitution score of the infix symbol against itself), the
infix's own sequence appears with that score in its own neighbor list. -/
theorem self_inclusion (query : List Char) (matrix : ScoreMatrix)
    (word_size score_threshold threads : Int) (res : List NHResult)
    (hres : generateNeighborhood query matrix word_size score_threshold threads =
      Except.ok res) (r : NHResult) (hr : r ∈ res)
    (hch : ∀ c ∈ r.ifxStr, c ∈ matrix.alphabet)
    (hself : score_threshold = totalScore matrix.score r.ifxStr r.ifxStr) :
    (r.ifxStr, totalScore matrix.score r.ifxStr r.ifxStr) ∈ r.neighbors := by
  obtain ⟨-, hnb⟩ := mem_generateNeighborhood hres hr
  rw [hnb, mem_searchIfx, mem_bruteForce]
  exact ⟨rfl, hch, rfl, le_of_eq hself⟩

/-- Witness for C10: infix AC of the spec section 8 example at threshold
2, its self-score, contains (AC, 2) in its own neighbor list. -/
theorem self_inclusion_witness :
    (['A','C'], totalScore unitScore ['A','C'] ['A','C']) ∈ [(['A','C'], (2:Int))] :=
  self_inclusion qEx mEx 2 2 1 resEx genEx_eval ⟨['A','C'], [(['A','C'], 2)]⟩
    (by decide) (by decide) (by decide)
